import Mathlib

/-
Verification development for the bpmn-engine repository.

The implementation file under verification is src/lib/Definition.js, which
defines Definition, DefinitionInstance and DefinitionExecution.  The
DefinitionExecution part is a single-threaded event-driven state machine:
process-level events (enter, start, message, end, error) and the direct calls
stop and signal mutate two bookkeeping lists (running, completed), a few
boolean flags (entered, started, stopped), the environment result, and a
setImmediate queue for deferred message delivery.  We embed that machine
shallowly: the mutable closure state becomes the structure Exec, each event
handler becomes a function Exec to Exec, and the observable effects (emitted
definition-level events, completion-callback invocations, calls into child
processes) are recorded in an append-only action log.

Process, Activity and the LoopController are not under src/ (only their tests
are), so where a claim depends on them the definitions below are modelled from
the spec and from the repository tests, as indicated in each doc comment.
-/

namespace BpmnEngine

/-- Process identifiers; Definition.js identifies process executions by their
unique process id (running.findIndex by identity coincides with id lookup
because each process enters the running list at most once). -/
abbrev PId := String

/-- Opaque message payload routed between processes. -/
abbrev Msg := String

/-- Opaque per-process output merged into the Environment result. -/
abbrev Output := String

/-- Errors and validation warnings, carried as plain strings. -/
abbrev Err := String

/-- Observable actions of DefinitionExecution, in emission order: the
definition-level events it emits, the completion-callback invocations, and the
calls it makes into child processes.  crash records a JavaScript TypeError
(indexing running with -1 in sendMessage, or running a missing main process). -/
inductive Act where
  | emitEnter : Act
  | emitStart : Act
  | emitEnd : Act
  | emitError : Err → Act
  | cbCall : Option Err → Act
  | procRun : PId → Act
  | procStop : PId → Act
  | procResume : PId → Act
  | deliverMsg : PId → Msg → Act
  | crash : Act
deriving DecidableEq, Repr

/-- The closure state of DefinitionExecution (src/lib/Definition.js 198-411):
running and completed process lists, the entered, started and stopped flags,
whether teardown has removed the process listeners, the pending setImmediate
queue of deferred message deliveries, the action log, and the list of process
outputs assigned to the environment result. -/
structure Exec where
  running : List PId
  completedP : List PId
  entered : Bool
  started : Bool
  stopped : Bool
  tornDown : Bool
  tickQueue : List (PId × Msg)
  log : List Act
  envResults : List (PId × Output)
deriving DecidableEq, Repr

/-- Inputs that drive DefinitionExecution: the process-level events its
listeners react to, the direct stop call, and a scheduler tick that runs the
oldest pending setImmediate callback. -/
inductive Input where
  | procEnter : PId → Input
  | procStart : Input
  | procEnd : PId → Output → Input
  | procError : Err → Input
  | message : PId → Msg → Input
  | stopCall : Input
  | tick : Input
deriving DecidableEq, Repr

/-- State right after setup (src/lib/Definition.js 321-329): nothing running,
nothing completed, no flags set, empty log. -/
def initExec : Exec :=
  { running := [], completedP := [], entered := false, started := false,
    stopped := false, tornDown := false, tickQueue := [], log := [],
    envResults := [] }

/-- Translated from completeCallback (src/lib/Definition.js 253-264): on an
error with a callback, the callback is invoked and the function returns; on an
error without a callback the error event is emitted and control falls through
to the end emission; without an error the callback (if any) is invoked and end
is emitted. -/
def completeActs (hasCallback : Bool) (err : Option Err) : List Act :=
  match err with
  | some e =>
    if hasCallback then [Act.cbCall (some e)]
    else [Act.emitError e, Act.emitEnd]
  | none => (if hasCallback then [Act.cbCall none] else []) ++ [Act.emitEnd]

/-- Invoking the stored complete closure: teardown (listener removal) happens
first, then the completeCallback body appends its actions. -/
def doComplete (hc : Bool) (s : Exec) (err : Option Err) : Exec :=
  { s with tornDown := true, log := s.log ++ completeActs hc err }

/-- Translated from onEnter (src/lib/Definition.js 341-347): push the process
execution onto running, emit the definition enter event only the first time,
set entered. -/
def onEnterStep (s : Exec) (p : PId) : Exec :=
  { s with running := s.running ++ [p],
           entered := true,
           log := s.log ++ (if s.entered then [] else [Act.emitEnter]) }

/-- Translated from onStart (src/lib/Definition.js 349-352): emit the
definition start event only the first time, set started. -/
def onStartStep (s : Exec) : Exec :=
  { s with started := true,
           log := s.log ++ (if s.started then [] else [Act.emitStart]) }

/-- Translated from onEnd (src/lib/Definition.js 372-384): if the ending
process execution is in running, move it to completed and assign its output to
the environment result; then, if running is empty, invoke complete. -/
def onEndStep (hc : Bool) (s : Exec) (p : PId) (out : Output) : Exec :=
  let s1 :=
    if p ∈ s.running then
      { s with running := s.running.erase p,
               completedP := s.completedP ++ [p],
               envResults := s.envResults ++ [(p, out)] }
    else s
  if s1.running.isEmpty then doComplete hc s1 none else s1

/-- Translated from onError (src/lib/Definition.js 386-389): teardown and
invoke complete with the error (complete performs teardown again, harmlessly). -/
def onErrorStep (hc : Bool) (s : Exec) (e : Err) : Exec :=
  doComplete hc s (some e)

/-- Translated from onMessage and sendMessage (src/lib/Definition.js 354-370
and 391-394).  If the target process is already in running, sendMessage is
invoked synchronously.  Otherwise targetProcess.run() is called and delivery is
deferred with setImmediate.  Modelled from the spec: Process.run is not under
src/; per the spec all activation is synchronous, so run() synchronously emits
the process enter event, which this listener set handles through onEnter; the
enter cascade is therefore applied here before the deferred delivery is
queued. -/
def onMessageStep (s : Exec) (t : PId) (m : Msg) : Exec :=
  if t ∈ s.running then { s with log := s.log ++ [Act.deliverMsg t m] }
  else
    let s1 := onEnterStep { s with log := s.log ++ [Act.procRun t] } t
    { s1 with tickQueue := s1.tickQueue ++ [(t, m)] }

/-- One scheduler tick: run the oldest setImmediate callback, which is
sendMessage (src/lib/Definition.js 391-394); it looks the target up in running
and delivers; looking up a missing process yields running[-1].sendMessage,
a TypeError, recorded as crash. -/
def tickStep (s : Exec) : Exec :=
  match s.tickQueue with
  | [] => s
  | (t, m) :: rest =>
    if t ∈ s.running then
      { s with tickQueue := rest, log := s.log ++ [Act.deliverMsg t m] }
    else
      { s with tickQueue := rest, log := s.log ++ [Act.crash] }

/-- Translated from stop (src/lib/Definition.js 406-411): set stopped, call
stop on every running process execution, then invoke complete without an
error. -/
def stopStep (hc : Bool) (s : Exec) : Exec :=
  doComplete hc
    { s with stopped := true, log := s.log ++ s.running.map Act.procStop }
    none

/-- One reaction of DefinitionExecution.  Process events reach the handlers
only while the listeners are attached (setup has run and teardown has not);
stop is a direct method call and scheduler ticks run regardless. -/
def step (hc : Bool) (s : Exec) : Input → Exec
  | Input.procEnter p => if s.tornDown then s else onEnterStep s p
  | Input.procStart => if s.tornDown then s else onStartStep s
  | Input.procEnd p out => if s.tornDown then s else onEndStep hc s p out
  | Input.procError e => if s.tornDown then s else onErrorStep hc s e
  | Input.message t m => if s.tornDown then s else onMessageStep s t m
  | Input.stopCall => stopStep hc s
  | Input.tick => tickStep s

/-- A whole run: fold the step function over an input trace from the initial
state. -/
def run (hc : Bool) (inputs : List Input) : Exec :=
  inputs.foldl (step hc) initExec

/-- States reachable by some input trace of a run. -/
def Reachable (hc : Bool) (s : Exec) : Prop :=
  ∃ inputs, s = run hc inputs

/-- The graph-model data Definition.js reads through contextHelper: the
definition id, the validation warnings of the moddle context, the ids of the
process elements, and the executable entry process id when one exists. -/
structure DefModel where
  defId : String
  warnings : List Err
  processIds : List PId
  entryPointId : Option PId
deriving DecidableEq, Repr

/-- The hard error built in execute (src/lib/Definition.js 228). -/
def noExecutableProcessError (defId : String) : Err :=
  "definition <" ++ defId ++ "> has no executable process"

/-- Translated from DefinitionExecution.execute (src/lib/Definition.js
222-237): complete with the first warning if any; complete without error if
there are no processes; complete with the no-executable-process error if there
is no entry point id; otherwise run the main process (a missing main process
would be a TypeError). -/
def executeActs (hc : Bool) (m : DefModel) : List Act :=
  match m.warnings with
  | w :: _ => completeActs hc (some w)
  | [] =>
    if m.processIds.isEmpty then completeActs hc none
    else
      match m.entryPointId with
      | none => completeActs hc (some (noExecutableProcessError m.defId))
      | some ep =>
        match m.processIds.find? (fun p => p == ep) with
        | some mp => [Act.procRun mp]
        | none => [Act.crash]

/-- Translated from the instance-level resume (src/lib/Definition.js 90-109)
composed with DefinitionExecution.resume (239-251): with warnings present the
first warning goes to the callback if one was given, otherwise out through the
error event, and nothing is resumed; without warnings every process is resumed
(or, with no processes, complete is invoked at once). -/
def resumeActs (hc : Bool) (warnings : List Err) (processIds : List PId) :
    List Act :=
  match warnings with
  | w :: _ => if hc then [Act.cbCall (some w)] else [Act.emitError w]
  | [] =>
    if processIds.isEmpty then completeActs hc none
    else processIds.map Act.procResume

/-- Translated from DefinitionExecution.signal (src/lib/Definition.js
400-404): try each running process in order; return true on the first success;
fall off the end otherwise, which in JavaScript returns undefined, modelled as
none. -/
def signalScan (consumes : PId → Bool) : List PId → Option Bool
  | [] => none
  | p :: rest => if consumes p then some true else signalScan consumes rest

/-- The processes whose signal method is actually invoked by signalScan, in
order: iteration stops at the first process that consumes the signal. -/
def signalTried (consumes : PId → Bool) : List PId → List PId
  | [] => []
  | p :: rest => if consumes p then [p] else p :: signalTried consumes rest

/-- The state object of DefinitionExecution.getState (src/lib/Definition.js
266-290): the running status string, whether the stopped field is present, and
the process ids of the state mapping (running first, completed merged over
them). -/
structure DefExecState where
  state : String
  stopped : Bool
  processIds : List PId
deriving DecidableEq, Repr

/-- Translated from getRunningStatus (src/lib/Definition.js 303-306). -/
def getRunningStatus (s : Exec) : String :=
  if s.running.isEmpty && s.completedP.isEmpty then "pending"
  else if s.running.isEmpty then "completed" else "running"

/-- Translated from DefinitionExecution.getState (src/lib/Definition.js
266-290): the stopped field is included exactly when the stopped flag is set. -/
def getState (s : Exec) : DefExecState :=
  { state := getRunningStatus s, stopped := s.stopped,
    processIds := s.running ++ s.completedP }

/-- How an Activity is activated: once, or repeatedly under a multi-instance
loop of the given cardinality, sequentially or in parallel. -/
inductive LoopMode where
  | singular : LoopMode
  | sequentialLoop : Nat → LoopMode
  | parallelLoop : Nat → LoopMode
deriving DecidableEq, Repr

/-- Modelled from the spec and the repository tests: the LoopController and
ExecutionContext implementations are not under src/.  The id each
ExecutionContext carries, per activation: the plain activity id for a singular
activation; per the tests (src/unnamed/part_000 514-536 and src/unnamed/part_001
249-265) every sequential-loop activation again carries the plain activity id;
per the tests (src/unnamed/part_000 634-663 and src/unnamed/part_001 278-294)
parallel-loop activations carry ids of the form activityId, underscore, index,
never the plain activity id. -/
def executionContextIds (activityId : String) : LoopMode → List String
  | LoopMode.singular => [activityId]
  | LoopMode.sequentialLoop n => List.replicate n activityId
  | LoopMode.parallelLoop n =>
    (List.range n).map (fun i => activityId ++ "_" ++ toString i)

/-- Modelled from the spec: in parallel mode the LoopController spawns all
ExecutionContexts at loop entry and each emits exactly one wait event, so the
wait ids are the parallel-loop context ids in spawn order. -/
def parallelWaitIds (activityId : String) (n : Nat) : List String :=
  executionContextIds activityId (LoopMode.parallelLoop n)

/-- Modelled from the spec: the LoopState invariant says completedResults
preserves the item index order regardless of completion order, the insertion
position being fixed at spawn time.  Each signal to the context of spawn index
i therefore stores the output of item i in slot i; the signals arrive in the
given order, a permutation of the spawn indices. -/
def parallelLoopOutput {α β : Type} (items : List α) (out : α → β)
    (order : List Nat) : List (Option β) :=
  order.foldl (fun slots i => slots.set i ((items.get? i).map out))
    (List.replicate items.length none)

/-- Recognizer for the definition-level enter event in the action log. -/
def isEnterAct : Act → Bool
  | Act.emitEnter => true
  | _ => false

/-- Recognizer for the definition-level start event in the action log. -/
def isStartAct : Act → Bool
  | Act.emitStart => true
  | _ => false

/-- Recognizer for the definition-level end event in the action log. -/
def isEndAct : Act → Bool
  | Act.emitEnd => true
  | _ => false

/-- Recognizer for the definition-level error event in the action log. -/
def isErrorAct : Act → Bool
  | Act.emitError _ => true
  | _ => false

/-- Recognizer for a completion-callback invocation carrying an error. -/
def isErrCbAct : Act → Bool
  | Act.cbCall (some _) => true
  | _ => false

/-- Recognizer for a message delivery to the given process. -/
def isDeliverTo (t : PId) : Act → Bool
  | Act.deliverMsg t2 _ => t2 == t
  | _ => false

lemma foldl_step_inv (hc : Bool) {P : Exec → Prop}
    (hstep : ∀ s i, P s → P (step hc s i)) :
    ∀ (inputs : List Input) (s : Exec), P s → P (inputs.foldl (step hc) s) := by
  intro inputs
  induction inputs with
  | nil => intro s hs; simpa using hs
  | cons i rest ih =>
    intro s hs
    rw [List.foldl_cons]
    exact ih _ (hstep s i hs)

lemma countP_completeActs_enter (hc : Bool) (e : Option Err) :
    (completeActs hc e).countP isEnterAct = 0 := by
  cases e <;> cases hc <;>
    simp [completeActs, List.countP_cons, isEnterAct]

lemma countP_completeActs_start (hc : Bool) (e : Option Err) :
    (completeActs hc e).countP isStartAct = 0 := by
  cases e <;> cases hc <;>
    simp [completeActs, List.countP_cons, isStartAct]

lemma countP_completeActs_error_none (hc : Bool) :
    (completeActs hc none).countP isErrorAct = 0 := by
  cases hc <;> simp [completeActs, List.countP_cons, isErrorAct]

lemma countP_completeActs_errcb_none (hc : Bool) :
    (completeActs hc none).countP isErrCbAct = 0 := by
  cases hc <;> simp [completeActs, List.countP_cons, isErrCbAct]

lemma countP_completeActs_error_some (hc : Bool) (e : Err) :
    (completeActs hc (some e)).countP isErrorAct = if hc then 0 else 1 := by
  cases hc <;> simp [completeActs, List.countP_cons, isErrorAct]

lemma countP_completeActs_errcb_some (hc : Bool) (e : Err) :
    (completeActs hc (some e)).countP isErrCbAct = if hc then 1 else 0 := by
  cases hc <;> simp [completeActs, List.countP_cons, isErrCbAct]

lemma countP_map_procStop (l : List PId) (q : Act → Bool)
    (hq : ∀ p, q (Act.procStop p) = false) :
    (l.map Act.procStop).countP q = 0 := by
  induction l with
  | nil => simp
  | cons a t ih => simp [List.countP_cons, hq, ih]

lemma countP_enter_step (hc : Bool) (s : Exec) (i : Input)
    (h : s.log.countP isEnterAct = (if s.entered then 1 else 0)) :
    (step hc s i).log.countP isEnterAct
      = (if (step hc s i).entered then 1 else 0) := by
  have hstop : (s.running.map Act.procStop).countP isEnterAct = 0 :=
    countP_map_procStop _ _ (fun p => rfl)
  cases i with
  | procEnter p =>
    by_cases ht : s.tornDown
    · simpa [step, ht] using h
    · by_cases he : s.entered <;>
        simp [step, ht, onEnterStep, he, List.countP_append, h,
          List.countP_cons, isEnterAct]
  | procStart =>
    by_cases ht : s.tornDown
    · simpa [step, ht] using h
    · by_cases hst : s.started <;>
        simp [step, ht, onStartStep, hst, List.countP_append, h,
          List.countP_cons, isEnterAct]
  | procEnd p out =>
    by_cases ht : s.tornDown
    · simpa [step, ht] using h
    · by_cases hp : p ∈ s.running <;>
        simp [step, ht, onEndStep, hp, doComplete, List.countP_append,
          countP_completeActs_enter, h] <;>
        split <;>
        simp [List.countP_append, countP_completeActs_enter, h]
  | procError e =>
    by_cases ht : s.tornDown
    · simpa [step, ht] using h
    · simp [step, ht, onErrorStep, doComplete, List.countP_append,
        countP_completeActs_enter, h]
  | message t m =>
    by_cases ht : s.tornDown
    · simpa [step, ht] using h
    · by_cases hm : t ∈ s.running
      · simp [step, ht, onMessageStep, hm, List.countP_append,
          List.countP_cons, isEnterAct, h]
      · by_cases he : s.entered <;>
          simp [step, ht, onMessageStep, hm, onEnterStep, he,
            List.countP_append, List.countP_cons, isEnterAct, h]
  | stopCall =>
    simp [step, stopStep, doComplete, List.countP_append,
      countP_completeActs_enter, hstop, h]
  | tick =>
    match hq : s.tickQueue with
    | [] => simpa [step, tickStep, hq] using h
    | (t, m) :: rest =>
      by_cases hm : t ∈ s.running <;>
        simp [step, tickStep, hq, hm, List.countP_append, List.countP_cons,
          isEnterAct, h]

lemma countP_start_step (hc : Bool) (s : Exec) (i : Input)
    (h : s.log.countP isStartAct = (if s.started then 1 else 0)) :
    (step hc s i).log.countP isStartAct
      = (if (step hc s i).started then 1 else 0) := by
  have hstop : (s.running.map Act.procStop).countP isStartAct = 0 :=
    countP_map_procStop _ _ (fun p => rfl)
  cases i with
  | procEnter p =>
    by_cases ht : s.tornDown
    · simpa [step, ht] using h
    · by_cases he : s.entered <;>
        simp [step, ht, onEnterStep, he, List.countP_append, h,
          List.countP_cons, isStartAct]
  | procStart =>
    by_cases ht : s.tornDown
    · simpa [step, ht] using h
    · by_cases hst : s.started <;>
        simp [step, ht, onStartStep, hst, List.countP_append, h,
          List.countP_cons, isStartAct]
  | procEnd p out =>
    by_cases ht : s.tornDown
    · simpa [step, ht] using h
    · by_cases hp : p ∈ s.running <;>
        simp [step, ht, onEndStep, hp, doComplete, List.countP_append,
          countP_completeActs_start, h] <;>
        split <;>
        simp [List.countP_append, countP_completeActs_start, h]
  | procError e =>
    by_cases ht : s.tornDown
    · simpa [step, ht] using h
    · simp [step, ht, onErrorStep, doComplete, List.countP_append,
        countP_completeActs_start, h]
  | message t m =>
    by_cases ht : s.tornDown
    · simpa [step, ht] using h
    · by_cases hm : t ∈ s.running
      · simp [step, ht, onMessageStep, hm, List.countP_append,
          List.countP_cons, isStartAct, h]
      · by_cases he : s.entered <;>
          simp [step, ht, onMessageStep, hm, onEnterStep, he,
            List.countP_append, List.countP_cons, isStartAct, h]
  | stopCall =>
    simp [step, stopStep, doComplete, List.countP_append,
      countP_completeActs_start, hstop, h]
  | tick =>
    match hq : s.tickQueue with
    | [] => simpa [step, tickStep, hq] using h
    | (t, m) :: rest =>
      by_cases hm : t ∈ s.running <;>
        simp [step, tickStep, hq, hm, List.countP_append, List.countP_cons,
          isStartAct, h]

lemma countP_enter_run (hc : Bool) (inputs : List Input) :
    (run hc inputs).log.countP isEnterAct
      = (if (run hc inputs).entered then 1 else 0) := by
  have := foldl_step_inv hc
    (P := fun s => s.log.countP isEnterAct = (if s.entered then 1 else 0))
    (fun s i hs => countP_enter_step hc s i hs) inputs initExec (by simp [initExec])
  simpa [run] using this

lemma countP_start_run (hc : Bool) (inputs : List Input) :
    (run hc inputs).log.countP isStartAct
      = (if (run hc inputs).started then 1 else 0) := by
  have := foldl_step_inv hc
    (P := fun s => s.log.countP isStartAct = (if s.started then 1 else 0))
    (fun s i hs => countP_start_step hc s i hs) inputs initExec (by simp [initExec])
  simpa [run] using this

/-- Invariant tying the error surface to the teardown flag: before the first
completion no error has surfaced; an error event can only surface when no
callback was given, an error callback only when one was; each surfaces at most
once per run. -/
def ErrInv (hc : Bool) (s : Exec) : Prop :=
  (s.tornDown = false →
    s.log.countP isErrorAct = 0 ∧ s.log.countP isErrCbAct = 0) ∧
  (hc = true → s.log.countP isErrorAct = 0) ∧
  (hc = false → s.log.countP isErrCbAct = 0) ∧
  s.log.countP isErrorAct ≤ 1 ∧ s.log.countP isErrCbAct ≤ 1

lemma errInv_of_append_zero (hc : Bool) (s s' : Exec) (ext : List Act)
    (hlog : s'.log = s.log ++ ext)
    (he : ext.countP isErrorAct = 0) (hcb : ext.countP isErrCbAct = 0)
    (htd : s'.tornDown = s.tornDown ∨ s'.tornDown = true)
    (h : ErrInv hc s) : ErrInv hc s' := by
  obtain ⟨h0, hcerr, hccb, hle1, hle2⟩ := h
  have he' : s'.log.countP isErrorAct = s.log.countP isErrorAct := by
    simp [hlog, List.countP_append, he]
  have hcb' : s'.log.countP isErrCbAct = s.log.countP isErrCbAct := by
    simp [hlog, List.countP_append, hcb]
  refine ⟨?_, ?_, ?_, ?_, ?_⟩
  · intro htd'
    rcases htd with htd | htd
    · rw [he', hcb']; exact h0 (htd ▸ htd')
    · rw [htd] at htd'; exact absurd htd' (by simp)
  · intro hhc; rw [he']; exact hcerr hhc
  · intro hhc; rw [hcb']; exact hccb hhc
  · rw [he']; exact hle1
  · rw [hcb']; exact hle2

lemma errInv_congr (hc : Bool) (s s' : Exec) (hlog : s'.log = s.log)
    (htd : s'.tornDown = s.tornDown) (h : ErrInv hc s) : ErrInv hc s' := by
  unfold ErrInv at h ⊢
  rw [hlog, htd]
  exact h

lemma errInv_complete_none (hc : Bool) (s : Exec) (h : ErrInv hc s) :
    ErrInv hc (doComplete hc s none) := by
  refine errInv_of_append_zero hc s _ (completeActs hc none) rfl
    (countP_completeActs_error_none hc) (countP_completeActs_errcb_none hc)
    (Or.inr rfl) h

lemma errInv_complete_some (hc : Bool) (s : Exec) (e : Err)
    (ht : s.tornDown = false) (h : ErrInv hc s) :
    ErrInv hc (doComplete hc s (some e)) := by
  obtain ⟨h0, hcerr, hccb, hle1, hle2⟩ := h
  obtain ⟨hz1, hz2⟩ := h0 ht
  have he' : (doComplete hc s (some e)).log.countP isErrorAct
      = if hc then 0 else 1 := by
    show (s.log ++ completeActs hc (some e)).countP isErrorAct = _
    rw [List.countP_append, hz1, countP_completeActs_error_some]
    simp
  have hcb' : (doComplete hc s (some e)).log.countP isErrCbAct
      = if hc then 1 else 0 := by
    show (s.log ++ completeActs hc (some e)).countP isErrCbAct = _
    rw [List.countP_append, hz2, countP_completeActs_errcb_some]
    simp
  refine ⟨?_, ?_, ?_, ?_, ?_⟩
  · intro htd'
    exact absurd htd' (by simp [doComplete])
  · intro hhc; rw [he', hhc]; simp
  · intro hhc; rw [hcb', hhc]; simp
  · rw [he']; cases hc <;> simp
  · rw [hcb']; cases hc <;> simp

lemma errInv_onEnd (hc : Bool) (s : Exec) (p : PId) (out : Output)
    (h : ErrInv hc s) : ErrInv hc (onEndStep hc s p out) := by
  unfold onEndStep
  by_cases hp : p ∈ s.running
  · simp only [hp, if_true]
    split
    · exact errInv_complete_none hc _ (errInv_congr hc s _ rfl rfl h)
    · exact errInv_congr hc s _ rfl rfl h
  · simp only [hp, if_false]
    split
    · exact errInv_complete_none hc _ (errInv_congr hc s _ rfl rfl h)
    · exact errInv_congr hc s _ rfl rfl h

lemma errInv_step (hc : Bool) (s : Exec) (i : Input) (h : ErrInv hc s) :
    ErrInv hc (step hc s i) := by
  cases i with
  | procEnter p =>
    by_cases ht : s.tornDown
    · have hs : step hc s (Input.procEnter p) = s := by simp [step, ht]
      rw [hs]; exact h
    · have hs : step hc s (Input.procEnter p) = onEnterStep s p := by
        simp [step, ht]
      rw [hs]
      refine errInv_of_append_zero hc s _
        (if s.entered then [] else [Act.emitEnter]) rfl ?_ ?_ (Or.inl rfl) h <;>
        by_cases he : s.entered <;>
        simp [he, List.countP_cons, isErrorAct, isErrCbAct]
  | procStart =>
    by_cases ht : s.tornDown
    · have hs : step hc s Input.procStart = s := by simp [step, ht]
      rw [hs]; exact h
    · have hs : step hc s Input.procStart = onStartStep s := by simp [step, ht]
      rw [hs]
      refine errInv_of_append_zero hc s _
        (if s.started then [] else [Act.emitStart]) rfl ?_ ?_ (Or.inl rfl) h <;>
        by_cases hst : s.started <;>
        simp [hst, List.countP_cons, isErrorAct, isErrCbAct]
  | procEnd p out =>
    by_cases ht : s.tornDown
    · have hs : step hc s (Input.procEnd p out) = s := by simp [step, ht]
      rw [hs]; exact h
    · have hs : step hc s (Input.procEnd p out) = onEndStep hc s p out := by
        simp [step, ht]
      rw [hs]
      exact errInv_onEnd hc s p out h
  | procError e =>
    by_cases ht : s.tornDown
    · have hs : step hc s (Input.procError e) = s := by simp [step, ht]
      rw [hs]; exact h
    · have hs : step hc s (Input.procError e) = onErrorStep hc s e := by
        simp [step, ht]
      rw [hs]
      exact errInv_complete_some hc s e (by simpa using ht) h
  | message t m =>
    by_cases ht : s.tornDown
    · have hs : step hc s (Input.message t m) = s := by simp [step, ht]
      rw [hs]; exact h
    · have hs : step hc s (Input.message t m) = onMessageStep s t m := by
        simp [step, ht]
      rw [hs]
      unfold onMessageStep
      by_cases hm : t ∈ s.running
      · simp only [hm, if_true]
        refine errInv_of_append_zero hc s _ [Act.deliverMsg t m] rfl ?_ ?_
          (Or.inl rfl) h <;> simp [List.countP_cons, isErrorAct, isErrCbAct]
      · simp only [hm, if_false]
        refine errInv_of_append_zero hc s _
          ([Act.procRun t] ++ (if s.entered then [] else [Act.emitEnter]))
          ?_ ?_ ?_ (Or.inl rfl) h
        · show (s.log ++ [Act.procRun t]) ++ _ = _
          rw [List.append_assoc]
        · by_cases he : s.entered <;>
            simp [he, List.countP_append, List.countP_cons, isErrorAct]
        · by_cases he : s.entered <;>
            simp [he, List.countP_append, List.countP_cons, isErrCbAct]
  | stopCall =>
    have hs : step hc s Input.stopCall = stopStep hc s := by simp [step]
    rw [hs]
    unfold stopStep
    refine errInv_complete_none hc _ ?_
    refine errInv_of_append_zero hc s _ (s.running.map Act.procStop) rfl ?_ ?_
      (Or.inl rfl) h
    · exact countP_map_procStop _ _ (fun q => rfl)
    · exact countP_map_procStop _ _ (fun q => rfl)
  | tick =>
    have hs : step hc s Input.tick = tickStep s := by simp [step]
    rw [hs]
    unfold tickStep
    match hq : s.tickQueue with
    | [] => exact h
    | (t, m) :: rest =>
      by_cases hm : t ∈ s.running
      · simp only [hm, if_true]
        refine errInv_of_append_zero hc s _ [Act.deliverMsg t m] rfl ?_ ?_
          (Or.inl rfl) h <;> simp [List.countP_cons, isErrorAct, isErrCbAct]
      · simp only [hm, if_false]
        refine errInv_of_append_zero hc s _ [Act.crash] rfl ?_ ?_
          (Or.inl rfl) h <;> simp [List.countP_cons, isErrorAct, isErrCbAct]

lemma errInv_init (hc : Bool) : ErrInv hc initExec := by
  refine ⟨?_, ?_, ?_, ?_, ?_⟩ <;> simp [initExec]

lemma errInv_run (hc : Bool) (inputs : List Input) :
    ErrInv hc (run hc inputs) := by
  have := foldl_step_inv hc (P := ErrInv hc)
    (fun s i hs => errInv_step hc s i hs) inputs initExec (errInv_init hc)
  simpa [run] using this

lemma envResults_step (hc : Bool) (s : Exec) (i : Input)
    (h : s.envResults.map Prod.fst = s.completedP) :
    (step hc s i).envResults.map Prod.fst = (step hc s i).completedP := by
  cases i with
  | procEnter p =>
    by_cases ht : s.tornDown <;> simp [step, ht, onEnterStep, h]
  | procStart =>
    by_cases ht : s.tornDown <;> simp [step, ht, onStartStep, h]
  | procEnd p out =>
    by_cases ht : s.tornDown
    · simp [step, ht, h]
    · by_cases hp : p ∈ s.running <;>
        simp [step, ht, onEndStep, hp, doComplete, h] <;>
        split <;> simp [doComplete, h]
  | procError e =>
    by_cases ht : s.tornDown <;>
      simp [step, ht, onErrorStep, doComplete, h]
  | message t m =>
    by_cases ht : s.tornDown
    · simp [step, ht, h]
    · by_cases hm : t ∈ s.running <;>
        simp [step, ht, onMessageStep, hm, onEnterStep, h]
  | stopCall => simp [step, stopStep, doComplete, h]
  | tick =>
    match hq : s.tickQueue with
    | [] => simpa [step, tickStep, hq] using h
    | (t, m) :: rest =>
      by_cases hm : t ∈ s.running <;> simp [step, tickStep, hq, hm, h]

lemma envResults_run (hc : Bool) (inputs : List Input) :
    (run hc inputs).envResults.map Prod.fst = (run hc inputs).completedP := by
  have := foldl_step_inv hc
    (P := fun s => s.envResults.map Prod.fst = s.completedP)
    (fun s i hs => envResults_step hc s i hs) inputs initExec
    (by simp [initExec])
  simpa [run] using this

lemma stopped_step_mono (hc : Bool) (s : Exec) (i : Input)
    (h : s.stopped = true) : (step hc s i).stopped = true := by
  cases i with
  | procEnter p =>
    by_cases ht : s.tornDown <;> simp [step, ht, onEnterStep, h]
  | procStart =>
    by_cases ht : s.tornDown <;> simp [step, ht, onStartStep, h]
  | procEnd p out =>
    by_cases ht : s.tornDown
    · simp [step, ht, h]
    · by_cases hp : p ∈ s.running <;>
        simp [step, ht, onEndStep, hp, doComplete, h] <;>
        split <;> simp [doComplete, h]
  | procError e =>
    by_cases ht : s.tornDown <;>
      simp [step, ht, onErrorStep, doComplete, h]
  | message t m =>
    by_cases ht : s.tornDown
    · simp [step, ht, h]
    · by_cases hm : t ∈ s.running <;>
        simp [step, ht, onMessageStep, hm, onEnterStep, h]
  | stopCall => simp [step, stopStep, doComplete]
  | tick =>
    match hq : s.tickQueue with
    | [] => simpa [step, tickStep, hq] using h
    | (t, m) :: rest =>
      by_cases hm : t ∈ s.running <;> simp [step, tickStep, hq, hm, h]

lemma stopped_foldl_mono (hc : Bool) (inputs : List Input) (s : Exec)
    (h : s.stopped = true) : (inputs.foldl (step hc) s).stopped = true :=
  foldl_step_inv hc (P := fun s2 => s2.stopped = true)
    (fun s2 i hs => stopped_step_mono hc s2 i hs) inputs s h

lemma get?_set_pointwise {γ : Type} (l : List γ) (i j : Nat) (a : γ) :
    (l.set i a).get? j = if i = j ∧ j < l.length then some a else l.get? j := by
  induction l generalizing i j with
  | nil => simp
  | cons x t ih =>
    cases i with
    | zero =>
      cases j with
      | zero => simp
      | succ j2 => simp [List.set]
    | succ i2 =>
      cases j with
      | zero => simp [List.set]
      | succ j2 =>
        simp only [List.set, List.get?, ih, List.length_cons]
        by_cases hij : i2 = j2 <;> by_cases hj : j2 < t.length <;>
          simp [hij, hj, Nat.succ_lt_succ_iff]

lemma length_foldl_set {β : Type} (w : Nat → Option β) :
    ∀ (order : List Nat) (init : List (Option β)),
      (order.foldl (fun slots i => slots.set i (w i)) init).length
        = init.length := by
  intro order
  induction order with
  | nil => intro init; simp
  | cons a rest ih =>
    intro init
    rw [List.foldl_cons, ih, List.length_set]

lemma get?_foldl_set {β : Type} (w : Nat → Option β) :
    ∀ (order : List Nat) (init : List (Option β)) (j : Nat),
      (order.foldl (fun slots i => slots.set i (w i)) init).get? j
        = if j ∈ order ∧ j < init.length then some (w j) else init.get? j := by
  intro order
  induction order with
  | nil => intro init j; simp
  | cons a rest ih =>
    intro init j
    rw [List.foldl_cons, ih, List.length_set, get?_set_pointwise]
    by_cases hj : j < init.length
    · by_cases hjr : j ∈ rest
      · simp [hj, hjr]
      · by_cases hja : a = j
        · simp [hj, hjr, hja]
        · have hja2 : ¬ j = a := fun h2 => hja h2.symm
          simp [hj, hjr, hja, hja2, List.mem_cons]
    · by_cases hjr : j ∈ rest <;> by_cases hja : a = j <;> simp [hj, hjr, hja]

lemma parallelLoopOutput_get? {α β : Type} (items : List α) (out : α → β)
    (order : List Nat) (j : Nat) :
    (parallelLoopOutput items out order).get? j
      = if j ∈ order ∧ j < items.length then some ((items.get? j).map out)
        else (List.replicate items.length (none : Option β)).get? j := by
  show ((order.foldl (fun slots i => slots.set i ((items.get? i).map out))
      (List.replicate items.length none)).get? j) = _
  rw [get?_foldl_set (fun i => (items.get? i).map out) order _ j]
  simp

lemma parallelLoopOutput_spawn_order {α β : Type} (items : List α)
    (out : α → β) (order : List Nat)
    (h : List.Perm order (List.range items.length)) :
    parallelLoopOutput items out order
      = items.map (fun x => some (out x)) := by
  apply List.ext_get?
  intro j
  rw [parallelLoopOutput_get?]
  by_cases hj : j < items.length
  · have hmem : j ∈ order := h.mem_iff.2 (List.mem_range.2 hj)
    rw [if_pos ⟨hmem, hj⟩, List.get?_map]
    cases hx : items.get? j with
    | none =>
      exact absurd (List.get?_eq_none.1 hx) (Nat.not_le.2 hj)
    | some x => simp
  · rw [if_neg (fun hcon => hj hcon.2)]
    rw [List.get?_eq_none.2 (by simpa using Nat.le_of_not_lt hj),
      List.get?_eq_none.2 (by simpa using Nat.le_of_not_lt hj)]

lemma parallel_id_ne_activity_id (aid : String) (i : Nat) :
    aid ++ "_" ++ toString i ≠ aid := by
  intro hcon
  have hlen : (aid ++ "_" ++ toString i).length = aid.length := by rw [hcon]
  rw [String.length_append, String.length_append] at hlen
  have h1 : ("_" : String).length = 1 := by decide
  rw [h1] at hlen
  omega

lemma activity_id_not_mem_parallel_ids (aid : String) (n : Nat) :
    aid ∉ executionContextIds aid (LoopMode.parallelLoop n) := by
  intro hmem
  simp only [executionContextIds, List.mem_map] at hmem
  obtain ⟨i, _, hi⟩ := hmem
  exact parallel_id_ne_activity_id aid i hi

/-- C1, counterexample: the claim quantifies over every graph model with no
executable entry process, but a graph model with no processes at all (hence,
in particular, no executable entry process) is completed by execute without
any error: the action list is exactly an end emission, no error event, no
callback invocation with an error, and validation is not assumed to warn on an
empty model (src/lib/Definition.js 226 runs before the entry-point check at
227). -/
theorem execute_silent_empty_model_cex :
    executeActs false
        { defId := "Def_1", warnings := [], processIds := [],
          entryPointId := none }
      = [Act.emitEnd] ∧
    Act.emitError (noExecutableProcessError "Def_1") ∉
      executeActs false
        { defId := "Def_1", warnings := [], processIds := [],
          entryPointId := none } ∧
    Act.cbCall (some (noExecutableProcessError "Def_1")) ∉
      executeActs false
        { defId := "Def_1", warnings := [], processIds := [],
          entryPointId := none } := by
  decide

/-- C1, amended: for every graph model with no validation warnings, at least
one process, and no executable entry process, execute aborts immediately with
the hard no-executable-process error, delivered through the completion
callback when one was given and through the error event otherwise, and runs no
Process. -/
theorem execute_no_executable_process (hc : Bool) (m : DefModel)
    (hw : m.warnings = []) (hp : m.processIds ≠ [])
    (he : m.entryPointId = none) :
    executeActs hc m
      = completeActs hc (some (noExecutableProcessError m.defId)) ∧
    (∀ p, Act.procRun p ∉ executeActs hc m) ∧
    (hc = true →
      executeActs hc m
        = [Act.cbCall (some (noExecutableProcessError m.defId))]) ∧
    (hc = false →
      Act.emitError (noExecutableProcessError m.defId) ∈ executeActs hc m) := by
  have hne : m.processIds.isEmpty = false := by
    cases hpl : m.processIds with
    | nil => exact absurd hpl hp
    | cons a t => simp
  have hact : executeActs hc m
      = completeActs hc (some (noExecutableProcessError m.defId)) := by
    unfold executeActs
    rw [hw, he, hne]
    simp
  refine ⟨hact, ?_, ?_, ?_⟩
  · intro p hmem
    rw [hact] at hmem
    cases hc <;> simp [completeActs] at hmem
  · intro hhc; rw [hact, hhc]; simp [completeActs]
  · intro hhc; rw [hact, hhc]; simp [completeActs]

theorem execute_no_executable_process_witness :
    (({ defId := "Def_1", warnings := [], processIds := ["P1"],
        entryPointId := none } : DefModel).warnings = []) ∧
    (({ defId := "Def_1", warnings := [], processIds := ["P1"],
        entryPointId := none } : DefModel).processIds ≠ []) ∧
    (({ defId := "Def_1", warnings := [], processIds := ["P1"],
        entryPointId := none } : DefModel).entryPointId = none) ∧
    (executeActs false
        { defId := "Def_1", warnings := [], processIds := ["P1"],
          entryPointId := none }
      = completeActs false (some (noExecutableProcessError "Def_1")) ∧
    (∀ p, Act.procRun p ∉ executeActs false
        { defId := "Def_1", warnings := [], processIds := ["P1"],
          entryPointId := none }) ∧
    (false = true →
      executeActs false
          { defId := "Def_1", warnings := [], processIds := ["P1"],
            entryPointId := none }
        = [Act.cbCall (some (noExecutableProcessError "Def_1"))]) ∧
    (false = false →
      Act.emitError (noExecutableProcessError "Def_1") ∈ executeActs false
        { defId := "Def_1", warnings := [], processIds := ["P1"],
          entryPointId := none })) :=
  ⟨by decide, by decide, by decide,
    execute_no_executable_process false
      { defId := "Def_1", warnings := [], processIds := ["P1"],
        entryPointId := none } (by decide) (by decide) (by decide)⟩

/-- C2: for every saved state whose graph model validation produced at least
one warning, Definition.resume fails immediately with the first warning,
passed to the callback when one was provided and emitted as an error event
otherwise, and resumes no Process (src/lib/Definition.js 94-97 returns before
resumeProcesses). -/
theorem resume_warnings_fail_fast (hc : Bool) (w : Err) (ws : List Err)
    (pids : List PId) :
    resumeActs hc (w :: ws) pids
      = (if hc then [Act.cbCall (some w)] else [Act.emitError w]) ∧
    (∀ p, Act.procResume p ∉ resumeActs hc (w :: ws) pids) ∧
    Act.emitEnd ∉ resumeActs hc (w :: ws) pids := by
  refine ⟨rfl, ?_, ?_⟩
  · intro p hmem
    unfold resumeActs at hmem
    cases hc <;> simp at hmem
  · intro hmem
    unfold resumeActs at hmem
    cases hc <;> simp at hmem

/-- C8, counterexample: with a single running process that does not consume
the signal, DefinitionExecution.signal falls off its loop and returns
undefined (modelled none), which is not the boolean false the claim states. -/
theorem signal_returns_undefined_cex :
    signalScan (fun _ => false) ["P1"] = none ∧
    (none : Option Bool) ≠ some false ∧
    (none : Option Bool) ≠ some true := by
  refine ⟨rfl, by decide, by decide⟩

/-- C8, amended: signal returns true exactly when some running Process
consumes the signal and undefined (none) otherwise, never the boolean false;
the running Processes are tried in order and iteration stops at the first
Process reporting success. -/
theorem signal_first_success (consumes : PId → Bool) (l : List PId) :
    (signalScan consumes l = some true ↔ ∃ p, p ∈ l ∧ consumes p = true) ∧
    (signalScan consumes l = none ↔ ∀ p ∈ l, consumes p = false) ∧
    signalScan consumes l ≠ some false ∧
    signalTried consumes l
      = l.takeWhile (fun p => !consumes p)
        ++ (l.dropWhile (fun p => !consumes p)).take 1 := by
  induction l with
  | nil =>
    refine ⟨?_, ?_, ?_, ?_⟩
    · constructor
      · intro hcon; exact absurd hcon (by simp [signalScan])
      · rintro ⟨p, hp, _⟩; exact absurd hp (List.not_mem_nil p)
    · constructor
      · intro _ p hp; exact absurd hp (List.not_mem_nil p)
      · intro _; rfl
    · simp [signalScan]
    · rfl
  | cons a t ih =>
    obtain ⟨ih1, ih2, ih3, ih4⟩ := ih
    have hcons : signalScan consumes (a :: t)
        = if consumes a then some true else signalScan consumes t := rfl
    have tcons : signalTried consumes (a :: t)
        = if consumes a then [a] else a :: signalTried consumes t := rfl
    by_cases ha : consumes a = true
    · rw [hcons, tcons, if_pos ha, if_pos ha]
      refine ⟨?_, ?_, ?_, ?_⟩
      · constructor
        · intro _; exact ⟨a, List.mem_cons_self a t, ha⟩
        · intro _; rfl
      · constructor
        · intro hcon; exact absurd hcon (by simp)
        · intro hall
          exact absurd (hall a (List.mem_cons_self a t)) (by simp [ha])
      · simp
      · simp [List.takeWhile_cons, List.dropWhile_cons, ha]
    · have ha2 : consumes a = false := by simpa using ha
      rw [hcons, tcons, if_neg ha, if_neg ha]
      refine ⟨?_, ?_, ?_, ?_⟩
      · rw [ih1]
        constructor
        · rintro ⟨p, hp, hcp⟩; exact ⟨p, List.mem_cons_of_mem a hp, hcp⟩
        · rintro ⟨p, hp, hcp⟩
          rcases List.mem_cons.1 hp with heq | hp2
          · rw [heq] at hcp; exact absurd hcp ha
          · exact ⟨p, hp2, hcp⟩
      · rw [ih2]
        constructor
        · intro hall p hp
          rcases List.mem_cons.1 hp with heq | hp2
          · rw [heq]; exact ha2
          · exact hall p hp2
        · intro hall p hp; exact hall p (List.mem_cons_of_mem a hp)
      · exact ih3
      · simp [List.takeWhile_cons, List.dropWhile_cons, ha2, ih4]

/-- C3: for a parallel multi-instance activity over a collection of C items,
exactly C wait events are emitted (one per spawned ExecutionContext), and for
every signal order that is a permutation of the spawn indices, including
reverse spawn order, the aggregated output list has length C and equals the
per-item outputs in spawn-index order. -/
theorem parallel_loop_wait_count_and_output {α β : Type} (aid : String)
    (items : List α) (out : α → β) (order : List Nat)
    (h : List.Perm order (List.range items.length)) :
    (parallelWaitIds aid items.length).length = items.length ∧
    (parallelLoopOutput items out order).length = items.length ∧
    parallelLoopOutput items out order
      = items.map (fun x => some (out x)) := by
  refine ⟨?_, ?_, parallelLoopOutput_spawn_order items out order h⟩
  · simp [parallelWaitIds, executionContextIds]
  · show (order.foldl (fun slots i => slots.set i ((items.get? i).map out))
        (List.replicate items.length none)).length = items.length
    rw [length_foldl_set (fun i => (items.get? i).map out) order]
    simp

theorem parallel_loop_wait_count_and_output_witness :
    List.Perm [2, 1, 0] (List.range ([10, 20, 30] : List Nat).length) ∧
    ((parallelWaitIds "task" ([10, 20, 30] : List Nat).length).length
        = ([10, 20, 30] : List Nat).length ∧
      (parallelLoopOutput [10, 20, 30] (fun x => x + 1) [2, 1, 0]).length
        = ([10, 20, 30] : List Nat).length ∧
      parallelLoopOutput [10, 20, 30] (fun x => x + 1) [2, 1, 0]
        = ([10, 20, 30] : List Nat).map (fun x => some (x + 1))) :=
  ⟨by decide,
    parallel_loop_wait_count_and_output "task" [10, 20, 30] (fun x => x + 1)
      [2, 1, 0] (by decide)⟩

/-- C4, counterexample: in a sequential multi-instance loop of cardinality 3
on activity task, every ExecutionContext carries the plain id task (matching
the repository test that sequential-loop waits and starts all carry the same
id), not the index-suffixed task_0, task_1, task_2 the claim states, and the
ids are not unique across the iterations. -/
theorem sequential_loop_same_id_cex :
    executionContextIds "task" (LoopMode.sequentialLoop 3)
      = ["task", "task", "task"] ∧
    "task_0" ∉ executionContextIds "task" (LoopMode.sequentialLoop 3) ∧
    "task_1" ∉ executionContextIds "task" (LoopMode.sequentialLoop 3) ∧
    ¬ (executionContextIds "task" (LoopMode.sequentialLoop 3)).Nodup := by
  decide

/-- C4, amended: every ExecutionContext carries an id equal to the Activity id
for a singular activation and for every activation inside a sequential
multi-instance loop (iterations share the Activity id), and equal to the
Activity id with an underscore and the spawn index appended inside a parallel
multi-instance loop, where it always differs from the plain Activity id. -/
theorem execution_context_ids_by_mode (aid : String) (n i : Nat)
    (hi : i < n) :
    executionContextIds aid LoopMode.singular = [aid] ∧
    (∀ x ∈ executionContextIds aid (LoopMode.sequentialLoop n), x = aid) ∧
    (executionContextIds aid (LoopMode.sequentialLoop n)).length = n ∧
    (executionContextIds aid (LoopMode.parallelLoop n)).get? i
      = some (aid ++ "_" ++ toString i) ∧
    (executionContextIds aid (LoopMode.parallelLoop n)).length = n ∧
    aid ∉ executionContextIds aid (LoopMode.parallelLoop n) := by
  refine ⟨rfl, ?_, ?_, ?_, ?_, activity_id_not_mem_parallel_ids aid n⟩
  · intro x hx
    exact List.eq_of_mem_replicate hx
  · simp [executionContextIds]
  · show ((List.range n).map (fun j => aid ++ "_" ++ toString j)).get? i = _
    rw [List.get?_map, List.get?_range hi]
    rfl
  · simp [executionContextIds]

theorem execution_context_ids_by_mode_witness :
    (1 < 3) ∧
    (executionContextIds "task" LoopMode.singular = ["task"] ∧
      (∀ x ∈ executionContextIds "task" (LoopMode.sequentialLoop 3),
        x = "task") ∧
      (executionContextIds "task" (LoopMode.sequentialLoop 3)).length = 3 ∧
      (executionContextIds "task" (LoopMode.parallelLoop 3)).get? 1
        = some ("task" ++ "_" ++ toString 1) ∧
      (executionContextIds "task" (LoopMode.parallelLoop 3)).length = 3 ∧
      "task" ∉ executionContextIds "task" (LoopMode.parallelLoop 3)) :=
  ⟨by decide, execution_context_ids_by_mode "task" 3 1 (by decide)⟩

/-- C5, counterexample: with one process still in the running list, a stop
call invokes completion (src/lib/Definition.js 410 calls complete
unconditionally): the end event is emitted while the running list is
nonempty, so completion is not invoked only when the running list is empty. -/
theorem stop_completes_with_running_cex :
    Act.emitEnd ∈
      (step false (step false initExec (Input.procEnter "P1"))
        Input.stopCall).log ∧
    (step false (step false initExec (Input.procEnter "P1"))
        Input.stopCall).running = ["P1"] := by
  decide

/-- C5, amended: when a Process end event arrives for a running Process, the
Definition invokes its completion exactly when the running list becomes empty
(stop and error paths invoke completion regardless of remaining running
Processes), and the completion of the Process merges its output into the
Environment result, so the accumulated results always correspond one to one,
in order, to the completed Processes. -/
theorem process_end_completion (hc : Bool) (s : Exec) (p : PId) (out : Output)
    (hr : Reachable hc s) (ht : s.tornDown = false) (hp : p ∈ s.running) :
    (step hc s (Input.procEnd p out)).running = s.running.erase p ∧
    (step hc s (Input.procEnd p out)).completedP = s.completedP ++ [p] ∧
    (step hc s (Input.procEnd p out)).envResults
      = s.envResults ++ [(p, out)] ∧
    (s.running.erase p = [] →
      (step hc s (Input.procEnd p out)).log = s.log ++ completeActs hc none ∧
      Act.emitEnd ∈ completeActs hc none) ∧
    (s.running.erase p ≠ [] →
      (step hc s (Input.procEnd p out)).log = s.log) ∧
    (step hc s (Input.procEnd p out)).envResults.map Prod.fst
      = (step hc s (Input.procEnd p out)).completedP := by
  have hs : step hc s (Input.procEnd p out) = onEndStep hc s p out := by
    simp [step, ht]
  have hinv : (step hc s (Input.procEnd p out)).envResults.map Prod.fst
      = (step hc s (Input.procEnd p out)).completedP := by
    obtain ⟨inputs, hsi⟩ := hr
    have : step hc s (Input.procEnd p out)
        = run hc (inputs ++ [Input.procEnd p out]) := by
      rw [hsi, run, run, List.foldl_append]
      rfl
    rw [this]
    exact envResults_run hc (inputs ++ [Input.procEnd p out])
  by_cases hre : s.running.erase p = []
  · have hemp : (s.running.erase p).isEmpty = true := by simp [hre]
    have hstep : step hc s (Input.procEnd p out)
        = doComplete hc
            { s with running := s.running.erase p,
                     completedP := s.completedP ++ [p],
                     envResults := s.envResults ++ [(p, out)] } none := by
      rw [hs]
      unfold onEndStep
      simp only [hp, if_true, hemp, ite_true]
    refine ⟨?_, ?_, ?_, ?_, ?_, hinv⟩
    · rw [hstep]; rfl
    · rw [hstep]; rfl
    · rw [hstep]; rfl
    · intro _
      exact ⟨by rw [hstep]; rfl, by cases hc <;> simp [completeActs]⟩
    · intro hcon; exact absurd hre hcon
  · have hemp : (s.running.erase p).isEmpty = false := by
      cases hee : s.running.erase p with
      | nil => exact absurd hee hre
      | cons a tl => simp
    have hstep : step hc s (Input.procEnd p out)
        = { s with running := s.running.erase p,
                   completedP := s.completedP ++ [p],
                   envResults := s.envResults ++ [(p, out)] } := by
      rw [hs]
      unfold onEndStep
      simp only [hp, if_true, hemp, ite_false, Bool.false_eq_true]
    refine ⟨?_, ?_, ?_, ?_, ?_, hinv⟩
    · rw [hstep]
    · rw [hstep]
    · rw [hstep]
    · intro hcon; exact absurd hcon hre
    · intro _; rw [hstep]

theorem process_end_completion_witness :
    Reachable false (run false [Input.procEnter "P1"]) ∧
    (run false [Input.procEnter "P1"]).tornDown = false ∧
    "P1" ∈ (run false [Input.procEnter "P1"]).running ∧
    ((step false (run false [Input.procEnter "P1"])
        (Input.procEnd "P1" "o")).running
      = (run false [Input.procEnter "P1"]).running.erase "P1" ∧
    (step false (run false [Input.procEnter "P1"])
        (Input.procEnd "P1" "o")).completedP
      = (run false [Input.procEnter "P1"]).completedP ++ ["P1"] ∧
    (step false (run false [Input.procEnter "P1"])
        (Input.procEnd "P1" "o")).envResults
      = (run false [Input.procEnter "P1"]).envResults ++ [("P1", "o")] ∧
    ((run false [Input.procEnter "P1"]).running.erase "P1" = [] →
      (step false (run false [Input.procEnter "P1"])
          (Input.procEnd "P1" "o")).log
        = (run false [Input.procEnter "P1"]).log ++ completeActs false none ∧
      Act.emitEnd ∈ completeActs false none) ∧
    ((run false [Input.procEnter "P1"]).running.erase "P1" ≠ [] →
      (step false (run false [Input.procEnter "P1"])
          (Input.procEnd "P1" "o")).log
        = (run false [Input.procEnter "P1"]).log) ∧
    (step false (run false [Input.procEnter "P1"])
        (Input.procEnd "P1" "o")).envResults.map Prod.fst
      = (step false (run false [Input.procEnter "P1"])
          (Input.procEnd "P1" "o")).completedP) :=
  ⟨⟨[Input.procEnter "P1"], rfl⟩, by decide, by decide,
    process_end_completion false (run false [Input.procEnter "P1"]) "P1" "o"
      ⟨[Input.procEnter "P1"], rfl⟩ (by decide) (by decide)⟩

/-- C7, counterexample: a process error with no completion callback emits the
error event and then also emits the end event (completeCallback,
src/lib/Definition.js 253-264, does not return after emitting error and falls
through to the end emission), so it is not the case that no end event follows
the error event. -/
theorem error_without_callback_emits_end_cex :
    (step false (step false initExec (Input.procEnter "P1"))
        (Input.procError "boom")).log
      = [Act.emitEnter, Act.emitError "boom", Act.emitEnd] := by
  decide

/-- C7, amended: a failed Definition run surfaces the error exactly once: when
a completion callback was provided it is invoked exactly once with the error
and no error or end event is emitted; when no callback was provided exactly
one error event is emitted, immediately followed by an end event. -/
theorem single_error_surface (hc : Bool) (s : Exec) (e : Err)
    (hr : Reachable hc s) (ht : s.tornDown = false) :
    (hc = true →
      (step hc s (Input.procError e)).log
        = s.log ++ [Act.cbCall (some e)] ∧
      (step hc s (Input.procError e)).log.countP isErrCbAct = 1 ∧
      (step hc s (Input.procError e)).log.countP isErrorAct = 0 ∧
      (step hc s (Input.procError e)).log.countP isEndAct
        = s.log.countP isEndAct) ∧
    (hc = false →
      (step hc s (Input.procError e)).log
        = s.log ++ [Act.emitError e, Act.emitEnd] ∧
      (step hc s (Input.procError e)).log.countP isErrorAct = 1 ∧
      (step hc s (Input.procError e)).log.countP isErrCbAct = 0) := by
  have hs : step hc s (Input.procError e)
      = doComplete hc s (some e) := by
    simp [step, ht, onErrorStep]
  have herr : ErrInv hc s := by
    obtain ⟨inputs, hsi⟩ := hr
    rw [hsi]
    exact errInv_run hc inputs
  obtain ⟨hz1, hz2⟩ := herr.1 ht
  constructor
  · intro hhc
    subst hhc
    rw [hs]
    refine ⟨rfl, ?_, ?_, ?_⟩
    · show (s.log ++ completeActs true (some e)).countP isErrCbAct = 1
      rw [List.countP_append, hz2]
      simp [completeActs, List.countP_cons, isErrCbAct]
    · show (s.log ++ completeActs true (some e)).countP isErrorAct = 0
      rw [List.countP_append, hz1]
      simp [completeActs, List.countP_cons, isErrorAct]
    · show (s.log ++ completeActs true (some e)).countP isEndAct
        = s.log.countP isEndAct
      rw [List.countP_append]
      simp [completeActs, List.countP_cons, isEndAct]
  · intro hhc
    subst hhc
    rw [hs]
    refine ⟨rfl, ?_, ?_⟩
    · show (s.log ++ completeActs false (some e)).countP isErrorAct = 1
      rw [List.countP_append, hz1]
      simp [completeActs, List.countP_cons, isErrorAct]
    · show (s.log ++ completeActs false (some e)).countP isErrCbAct = 0
      rw [List.countP_append, hz2]
      simp [completeActs, List.countP_cons, isErrCbAct]

theorem single_error_surface_witness :
    Reachable false (run false [Input.procEnter "P1"]) ∧
    (run false [Input.procEnter "P1"]).tornDown = false ∧
    ((false = true →
      (step false (run false [Input.procEnter "P1"])
          (Input.procError "boom")).log
        = (run false [Input.procEnter "P1"]).log ++ [Act.cbCall (some "boom")] ∧
      (step false (run false [Input.procEnter "P1"])
          (Input.procError "boom")).log.countP isErrCbAct = 1 ∧
      (step false (run false [Input.procEnter "P1"])
          (Input.procError "boom")).log.countP isErrorAct = 0 ∧
      (step false (run false [Input.procEnter "P1"])
          (Input.procError "boom")).log.countP isEndAct
        = (run false [Input.procEnter "P1"]).log.countP isEndAct) ∧
    (false = false →
      (step false (run false [Input.procEnter "P1"])
          (Input.procError "boom")).log
        = (run false [Input.procEnter "P1"]).log
          ++ [Act.emitError "boom", Act.emitEnd] ∧
      (step false (run false [Input.procEnter "P1"])
          (Input.procError "boom")).log.countP isErrorAct = 1 ∧
      (step false (run false [Input.procEnter "P1"])
          (Input.procError "boom")).log.countP isErrCbAct = 0)) :=
  ⟨⟨[Input.procEnter "P1"], rfl⟩, by decide,
    single_error_surface false (run false [Input.procEnter "P1"]) "boom"
      ⟨[Input.procEnter "P1"], rfl⟩ (by decide)⟩

/-- C9: a stop call marks the run stopped (the stopped flag is set, getState
includes stopped, and both remain true after every later input), calls stop on
every Process in the running set, and completes the run: the appended actions
are exactly the per-process stop calls followed by the non-error completion,
which emits the end event and contains no error event. -/
theorem stop_marks_and_completes (hc : Bool) (s : Exec) :
    (step hc s Input.stopCall).stopped = true ∧
    (getState (step hc s Input.stopCall)).stopped = true ∧
    (step hc s Input.stopCall).log
      = s.log ++ (s.running.map Act.procStop ++ completeActs hc none) ∧
    (∀ p ∈ s.running, Act.procStop p ∈ (step hc s Input.stopCall).log) ∧
    Act.emitEnd ∈ (step hc s Input.stopCall).log ∧
    (∀ e, Act.emitError e ∉ s.running.map Act.procStop ++ completeActs hc none) ∧
    (∀ more : List Input,
      (more.foldl (step hc) (step hc s Input.stopCall)).stopped = true ∧
      (getState (more.foldl (step hc) (step hc s Input.stopCall))).stopped
        = true) := by
  have hstop : (step hc s Input.stopCall).stopped = true := by
    simp [step, stopStep, doComplete]
  have hlog : (step hc s Input.stopCall).log
      = s.log ++ (s.running.map Act.procStop ++ completeActs hc none) := by
    show (s.log ++ s.running.map Act.procStop) ++ completeActs hc none = _
    rw [List.append_assoc]
  refine ⟨hstop, by simp [getState, hstop], hlog, ?_, ?_, ?_, ?_⟩
  · intro p hp
    rw [hlog]
    refine List.mem_append_right _ (List.mem_append_left _ ?_)
    exact List.mem_map_of_mem Act.procStop hp
  · rw [hlog]
    refine List.mem_append_right _ (List.mem_append_right _ ?_)
    cases hc <;> simp [completeActs]
  · intro e hmem
    rcases List.mem_append.1 hmem with hmem | hmem
    · obtain ⟨q, _, hq⟩ := List.mem_map.1 hmem
      cases hq
    · cases hc <;> simp [completeActs] at hmem
  · intro more
    have hm := stopped_foldl_mono hc more (step hc s Input.stopCall) hstop
    exact ⟨hm, by simp [getState, hm]⟩

/-- C10: over every input trace of a single run, the definition-level enter
event is emitted at most once and the definition-level start event at most
once, no matter how many process enter or start events arrive, including the
enter triggered by spinning up a process for a message. -/
theorem definition_enter_start_at_most_once (hc : Bool)
    (inputs : List Input) :
    (run hc inputs).log.countP isEnterAct ≤ 1 ∧
    (run hc inputs).log.countP isStartAct ≤ 1 := by
  constructor
  · rw [countP_enter_run]
    by_cases h : (run hc inputs).entered <;> simp [h]
  · rw [countP_start_run]
    by_cases h : (run hc inputs).started <;> simp [h]

/-- C6: when a message arrives for a target Process already in the running
set, it is delivered immediately and synchronously (no queueing, state
otherwise unchanged); when the target is not running, the Definition first
runs that Process (whose spec-modelled synchronous activation puts it in the
running set), does not deliver anything to it synchronously, and queues the
delivery for the next tick, at which point the message is delivered with the
target already activated and running. -/
theorem message_routing_defers_for_new_process (hc : Bool) (s : Exec)
    (t : PId) (m : Msg) (ht : s.tornDown = false) :
    (t ∈ s.running →
      (step hc s (Input.message t m)).log = s.log ++ [Act.deliverMsg t m] ∧
      (step hc s (Input.message t m)).tickQueue = s.tickQueue ∧
      (step hc s (Input.message t m)).running = s.running) ∧
    (t ∉ s.running →
      (step hc s (Input.message t m)).log.countP (isDeliverTo t)
        = s.log.countP (isDeliverTo t) ∧
      Act.procRun t ∈ (step hc s (Input.message t m)).log ∧
      t ∈ (step hc s (Input.message t m)).running ∧
      (s.tickQueue = [] →
        (step hc s (Input.message t m)).tickQueue = [(t, m)] ∧
        (step hc (step hc s (Input.message t m)) Input.tick).log
          = (step hc s (Input.message t m)).log ++ [Act.deliverMsg t m] ∧
        t ∈ (step hc (step hc s (Input.message t m)) Input.tick).running)) := by
  have hs : step hc s (Input.message t m) = onMessageStep s t m := by
    simp [step, ht]
  constructor
  · intro hm
    rw [hs]
    unfold onMessageStep
    rw [if_pos hm]
    exact ⟨rfl, rfl, rfl⟩
  · intro hm
    have hs2 : onMessageStep s t m
        = { s with running := s.running ++ [t],
                   entered := true,
                   tickQueue := s.tickQueue ++ [(t, m)],
                   log := (s.log ++ [Act.procRun t])
                     ++ (if s.entered then [] else [Act.emitEnter]) } := by
      unfold onMessageStep
      simp only [hm, if_false, ite_false]
      unfold onEnterStep
      rfl
    refine ⟨?_, ?_, ?_, ?_⟩
    · rw [hs, hs2]
      show (((s.log ++ [Act.procRun t])
          ++ (if s.entered then [] else [Act.emitEnter])).countP
            (isDeliverTo t)) = s.log.countP (isDeliverTo t)
      by_cases he : s.entered <;>
        simp [he, List.countP_append, List.countP_cons, isDeliverTo]
    · rw [hs, hs2]
      show Act.procRun t ∈ (s.log ++ [Act.procRun t])
        ++ (if s.entered then [] else [Act.emitEnter])
      exact List.mem_append_left _
        (List.mem_append_right _ (List.mem_singleton.2 rfl))
    · rw [hs, hs2]
      show t ∈ s.running ++ [t]
      exact List.mem_append_right _ (List.mem_singleton.2 rfl)
    · intro hq
      have hq2 : (step hc s (Input.message t m)).tickQueue = [(t, m)] := by
        rw [hs, hs2]
        show s.tickQueue ++ [(t, m)] = [(t, m)]
        rw [hq]
        rfl
      refine ⟨hq2, ?_, ?_⟩
      · have htick : step hc (step hc s (Input.message t m)) Input.tick
            = tickStep (step hc s (Input.message t m)) := by
          simp [step]
        rw [htick]
        unfold tickStep
        rw [hq2]
        have hmem : t ∈ (step hc s (Input.message t m)).running := by
          rw [hs, hs2]
          exact List.mem_append_right _ (List.mem_singleton.2 rfl)
        simp only [hmem, if_true, ite_true]
      · have htick : step hc (step hc s (Input.message t m)) Input.tick
            = tickStep (step hc s (Input.message t m)) := by
          simp [step]
        rw [htick]
        unfold tickStep
        rw [hq2]
        have hmem : t ∈ (step hc s (Input.message t m)).running := by
          rw [hs, hs2]
          exact List.mem_append_right _ (List.mem_singleton.2 rfl)
        simp only [hmem, if_true, ite_true]

theorem message_routing_defers_for_new_process_witness :
    initExec.tornDown = false ∧
    (("P2" ∈ initExec.running →
      (step false initExec (Input.message "P2" "m")).log
        = initExec.log ++ [Act.deliverMsg "P2" "m"] ∧
      (step false initExec (Input.message "P2" "m")).tickQueue
        = initExec.tickQueue ∧
      (step false initExec (Input.message "P2" "m")).running
        = initExec.running) ∧
    ("P2" ∉ initExec.running →
      (step false initExec (Input.message "P2" "m")).log.countP
          (isDeliverTo "P2")
        = initExec.log.countP (isDeliverTo "P2") ∧
      Act.procRun "P2" ∈ (step false initExec (Input.message "P2" "m")).log ∧
      "P2" ∈ (step false initExec (Input.message "P2" "m")).running ∧
      (initExec.tickQueue = [] →
        (step false initExec (Input.message "P2" "m")).tickQueue
          = [("P2", "m")] ∧
        (step false (step false initExec (Input.message "P2" "m"))
            Input.tick).log
          = (step false initExec (Input.message "P2" "m")).log
            ++ [Act.deliverMsg "P2" "m"] ∧
        "P2" ∈ (step false (step false initExec (Input.message "P2" "m"))
            Input.tick).running))) :=
  ⟨rfl, message_routing_defers_for_new_process false initExec "P2" "m" rfl⟩

end BpmnEngine
